import Mathlib

/-!
Verification of the RansomLook ingestion/reconciliation pipeline.

The development shallowly embeds the algorithmic core of the repository:

* `normalize_date` and `dedupe_and_merge` from `tools/import_posts_from_api.py`
  (timestamp canonicalization and the per-group merge/dedup/sort reconciler);
* the per-candidate filtering logic of the parser modules
  (`ransomlook/parsers/silentransomgroup.py`, `flocker.py`, `blacklock.py`,
  `medusalocker.py`);
* the module-driving loop of `bin/parse.py` (the aggregator).

Python `datetime` values are modelled by a record of numeric fields;
`datetime.strptime` for the four fixed patterns and (naive, dash-separated)
`datetime.fromisoformat` are modelled as total parsers over `List Char`,
mirroring CPython's `_strptime` regexes (fixed 4-digit year, 1-2 digit
month/day/hour/minute/second fields each followed by a non-digit literal or
the end of input, 1-6 digit right-padded fractions, full-match required).
Timezone-aware and basic-format ISO inputs, which the pipeline never
produces, are outside the modelled fragment of `fromisoformat`.
-/

namespace RansomLook

/-- Model of a (naive) Python `datetime` value: the fields produced by
`datetime.strptime` / `datetime.fromisoformat` in `normalize_date`. -/
structure PyDateTime where
  year : Nat
  month : Nat
  day : Nat
  hour : Nat
  minute : Nat
  second : Nat
  microsecond : Nat
deriving DecidableEq, Repr

/-- Gregorian leap-year test, as used by `datetime`'s day-of-month validation. -/
def isLeap (y : Nat) : Bool :=
  y % 4 == 0 && (y % 100 != 0 || y % 400 == 0)

/-- Number of days in a month, as validated by the `datetime` constructor. -/
def daysInMonth (y m : Nat) : Nat :=
  if m = 2 then (if isLeap y then 29 else 28)
  else if m = 4 ∨ m = 6 ∨ m = 9 ∨ m = 11 then 30
  else 31

/-- The range checks performed by the Python `datetime` constructor
(`MINYEAR = 1`, `MAXYEAR = 9999`). -/
def PyDateTime.Valid (dt : PyDateTime) : Prop :=
  1 ≤ dt.year ∧ dt.year ≤ 9999 ∧ 1 ≤ dt.month ∧ dt.month ≤ 12 ∧
  1 ≤ dt.day ∧ dt.day ≤ daysInMonth dt.year dt.month ∧
  dt.hour ≤ 23 ∧ dt.minute ≤ 59 ∧ dt.second ≤ 59 ∧ dt.microsecond ≤ 999999

instance (dt : PyDateTime) : Decidable dt.Valid := by
  unfold PyDateTime.Valid; infer_instance

/-- Constructor `datetime(y, mo, d, h, mi, s, us)`: `some` exactly when the constructor
does not raise. -/
def mkDatetime (y mo d h mi s us : Nat) : Option PyDateTime :=
  let dt : PyDateTime := ⟨y, mo, d, h, mi, s, us⟩
  if dt.Valid then some dt else none

/-- The digit character for `d < 10`. -/
def digitChar (d : Nat) : Char := Char.ofNat (48 + d)

/-- Numeric value of a digit character. -/
def charVal (c : Char) : Nat := c.toNat - 48

/-- Value of a big-endian digit string. -/
def valOf (ds : List Char) : Nat := ds.foldl (fun a c => a * 10 + charVal c) 0

/-- Decimal digits of `n`, left-padded with `'0'` to width `w`
(the `%0wd` formatting used by `datetime.isoformat`). -/
def toPadded : Nat → Nat → List Char
  | 0, _ => []
  | w + 1, n => toPadded w (n / 10) ++ [digitChar (n % 10)]

/-- Take up to `w` leading decimal digits, returning them and the rest.
Greedy matching is faithful to CPython's `_strptime` regexes here because in
every pattern a numeric field is followed by a non-digit literal or by the
end of the input (where a leftover digit makes the full match fail). -/
def takeDigits : Nat → List Char → List Char × List Char
  | 0, l => ([], l)
  | _ + 1, [] => ([], [])
  | w + 1, c :: l =>
    if c.isDigit then
      let p := takeDigits w l
      (c :: p.1, p.2)
    else ([], c :: l)

/-- Parse exactly `w` decimal digits (CPython's `%Y` regex is a fixed
`\d\d\d\d`; `fromisoformat` requires fixed-width fields). -/
def parseFixed (w : Nat) (l : List Char) : Option (Nat × List Char) :=
  let p := takeDigits w l
  if p.1.length = w then some (valOf p.1, p.2) else none

/-- Parse 1 to `w` decimal digits (the `%m`, `%d`, `%H`, `%M`, `%S` regexes). -/
def parseFlex (w : Nat) (l : List Char) : Option (Nat × List Char) :=
  let p := takeDigits w l
  if p.1.length = 0 then none else some (valOf p.1, p.2)

/-- Parse a 1-6 digit fraction, right-padded with zeros to microseconds
(the `%f` directive). -/
def parseFrac (l : List Char) : Option (Nat × List Char) :=
  let p := takeDigits 6 l
  if p.1.length = 0 then none else some (valOf p.1 * 10 ^ (6 - p.1.length), p.2)

/-- Consume one expected literal character. -/
def lit (c : Char) : List Char → Option (List Char)
  | [] => none
  | x :: l => if x = c then some l else none

/-- Model of `datetime.strptime` for the pattern `"%Y-%m-%d{sep}%H:%M:%S"`, with
`".%f"` appended when `withFrac` is set. The full input must be consumed
(`_strptime` raises on "unconverted data"). -/
def strptimeDT (sep : Char) (withFrac : Bool) (l : List Char) : Option PyDateTime := do
  let (y, r) ← parseFixed 4 l
  let r ← lit '-' r
  let (mo, r) ← parseFlex 2 r
  let r ← lit '-' r
  let (d, r) ← parseFlex 2 r
  let r ← lit sep r
  let (h, r) ← parseFlex 2 r
  let r ← lit ':' r
  let (mi, r) ← parseFlex 2 r
  let r ← lit ':' r
  let (s, r) ← parseFlex 2 r
  if withFrac then do
    let r ← lit '.' r
    let (us, r) ← parseFrac r
    if r.isEmpty then mkDatetime y mo d h mi s us else none
  else
    if r.isEmpty then mkDatetime y mo d h mi s 0 else none

/-- The `strptime` loop of `normalize_date`: the four patterns tried in
source order, first success wins. -/
def strptimeAny (l : List Char) : Option PyDateTime :=
  match strptimeDT ' ' true l with
  | some dt => some dt
  | none =>
    match strptimeDT ' ' false l with
    | some dt => some dt
    | none =>
      match strptimeDT 'T' true l with
      | some dt => some dt
      | none => strptimeDT 'T' false l

/-- The time part of an ISO string: `HH[:MM[:SS[.f{1,6}]]]`. -/
def parseTimePart (l : List Char) : Option (Nat × Nat × Nat × Nat) := do
  let (h, r) ← parseFixed 2 l
  match r with
  | [] => some (h, 0, 0, 0)
  | ':' :: r => do
    let (mi, r) ← parseFixed 2 r
    match r with
    | [] => some (h, mi, 0, 0)
    | ':' :: r => do
      let (s, r) ← parseFixed 2 r
      match r with
      | [] => some (h, mi, s, 0)
      | '.' :: r => do
        let (us, r) ← parseFrac r
        if r.isEmpty then some (h, mi, s, us) else none
      | _ => none
    | _ => none
  | _ => none

/-- Model of `datetime.fromisoformat` on the naive, dash-separated forms
`YYYY-MM-DD[{c}HH[:MM[:SS[.f{1,6}]]]]` (any single separator character, as
CPython accepts). -/
def fromisoformat (l : List Char) : Option PyDateTime := do
  let (y, r) ← parseFixed 4 l
  let r ← lit '-' r
  let (mo, r) ← parseFixed 2 r
  let r ← lit '-' r
  let (d, r) ← parseFixed 2 r
  match r with
  | [] => mkDatetime y mo d 0 0 0 0
  | _ :: rt => do
    let (h, mi, s, us) ← parseTimePart rt
    mkDatetime y mo d h mi s us

/-- Formatting `dt.isoformat(sep=" ", timespec=...)`: microseconds are printed, 6
digits, exactly when nonzero. -/
def formatDT (dt : PyDateTime) : List Char :=
  toPadded 4 dt.year ++ ('-' :: (toPadded 2 dt.month ++ ('-' :: (toPadded 2 dt.day ++ (' ' ::
  (toPadded 2 dt.hour ++ (':' :: (toPadded 2 dt.minute ++ (':' :: (toPadded 2 dt.second ++
  (if dt.microsecond ≠ 0 then '.' :: toPadded 6 dt.microsecond else [])))))))))))

/-- Function `normalize_date` from `tools/import_posts_from_api.py`: try the four
`strptime` patterns in order, fall back to `fromisoformat`, return the
input unchanged when both fail. -/
def normalize_date (s : String) : String :=
  match strptimeAny s.data with
  | some dt => (formatDT dt).asString
  | none =>
    match fromisoformat s.data with
    | some dt => (formatDT dt).asString
    | none => s

/-! ### The reconciler: `dedupe_and_merge` -/

/-- A stored post: the fields written by `dedupe_and_merge` (the canonical
`Post` of the data model). -/
structure Post where
  post_title : String
  discovered : String
  description : String
  link : Option String
  magnet : Option String
  screen : Option String
deriving DecidableEq, Repr

/-- A raw incoming record from the remote API: Python `dict.get` returning
`None` for an absent key is modelled by `Option`. -/
structure InPost where
  group_name : Option String
  post_title : Option String
  discovered : Option String
  description : Option String
  link : Option String
  magnet : Option String
  screen : Option String
deriving DecidableEq, Repr

/-- The in-place update `post["discovered"] = normalize_date(str(post.get("discovered", "")))`
applied to every existing post. -/
def renorm (p : Post) : Post := { p with discovered := normalize_date p.discovered }

/-- The `new_post` dict built from an incoming record (`.get` defaults:
`""` for `post_title`/`discovered`, `x or ""` for `description`). -/
def toPost (q : InPost) : Post where
  post_title := q.post_title.getD ""
  discovered := normalize_date (q.discovered.getD "")
  description := q.description.getD ""
  link := q.link
  magnet := q.magnet
  screen := q.screen

/-- Routing `group = post.get("group_name")` followed by `if not group: continue`:
the routing key, `none` when absent or falsy (empty). -/
def effGroup (q : InPost) : Option String :=
  match q.group_name with
  | none => none
  | some g => if g = "" then none else some g

/-- One incoming record against one group's working list: skip when the
title is empty, skip when the title is already present, else append. -/
def addPost (l : List Post) (q : InPost) : List Post :=
  let np := toPost q
  if np.post_title = "" then l
  else if l.any (fun p => p.post_title = np.post_title) then l
  else l ++ [np]

/-- One incoming record against the whole working mapping. -/
def stepIn (G : String → List Post) (q : InPost) : String → List Post :=
  match effGroup q with
  | none => G
  | some g => fun g' => if g' = g then addPost (G g) q else G g'

/-- Lexicographic comparison of code-point sequences: Python's `str`
comparison, used by `sorted(..., key=lambda p: p.get("discovered",""))`. -/
def leB : List Char → List Char → Bool
  | [], _ => true
  | _ :: _, [] => false
  | x :: xs, y :: ys =>
    if x.toNat < y.toNat then true
    else if y.toNat < x.toNat then false
    else leB xs ys

/-- The sort key comparison: Python's `sorted(..., key=lambda p: p.get("discovered",""))`
compares the `discovered` strings by code points. -/
def discLe (p q : Post) : Prop := leB p.discovered.data q.discovered.data = true

instance : DecidableRel discLe := fun p q =>
  inferInstanceAs (Decidable (leB p.discovered.data q.discovered.data = true))

/-- The pre-sort working mapping: existing posts re-normalized in place,
then the incoming batch folded in, in input order. -/
def mergedLists (existing : String → List Post) (incoming : List InPost) :
    String → List Post :=
  incoming.foldl stepIn (fun g => (existing g).map renorm)

/-- Function `dedupe_and_merge` from `tools/import_posts_from_api.py`, per group:
re-normalize existing posts, merge the incoming batch with first-seen-wins
deduplication by title, then stably sort each group's list by the
`discovered` string (Python's `sorted` is the unique stable sort; for a
total preorder `insertionSort` is that sort). -/
def dedupe_and_merge (existing : String → List Post) (incoming : List InPost)
    (g : String) : List Post :=
  List.insertionSort discLe (mergedLists existing incoming g)

/-! ### Extractor candidate filtering -/

/-- A raw extracted candidate: the dict appended to `list_div` by the
parser modules (`title`, `description`, optional `link`, `slug`). -/
structure RawCandidate where
  title : String
  description : String
  link : Option String
  slug : String
deriving DecidableEq, Repr

/-- Python's substring test `needle in hay`. -/
def pyIn (needle hay : String) : Bool := decide (needle.data <:+: hay.data)

/-- One `.block_1` of `silentransomgroup.main`: given the stripped text of
the cell following "COMPANY:" and the one following "COMPANY INFO:" (when
found; the BeautifulSoup query is abstracted as this input), append a
candidate unless the title is empty or contains a literal `"..."`. -/
def srgBlockStep (slug : String) (acc : List RawCandidate)
    (block : Option String × Option String) : List RawCandidate :=
  let title := block.1.getD ""
  let description := block.2.getD ""
  if title ≠ "" ∧ pyIn "..." title = false then
    acc ++ [⟨title, description, none, slug⟩]
  else acc

/-- Function `silentransomgroup.main` restricted to one source file. -/
def silentransomgroup_fragment (slug : String)
    (blocks : List (Option String × Option String)) : List RawCandidate :=
  blocks.foldl (srgBlockStep slug) []

/-- One `h2.entry-title` entry of `flocker.main`: (stripped title, link
href, stripped sibling description); appended whenever the title is
nonempty — there is no ellipsis check in this module. -/
def flockerEntryStep (slug : String) (acc : List RawCandidate)
    (entry : String × String × String) : List RawCandidate :=
  if entry.1 ≠ "" then acc ++ [⟨entry.1, entry.2.2, some entry.2.1, slug⟩]
  else acc

/-- Function `flocker.main` restricted to one source file. -/
def flocker_fragment (slug : String)
    (entries : List (String × String × String)) : List RawCandidate :=
  entries.foldl (flockerEntryStep slug) []

/-! ### Per-fragment fault isolation (`blacklock.main`, `medusalocker.main`) -/

/-- A victim entry of `blacklock`'s inline-script JSON (`fullname`,
`desc`, `url1`; an absent key defaults to `""`). -/
structure BlEntry where
  fullname : String
  desc : String
  url1 : String
deriving DecidableEq, Repr

/-- The inner victim loop of `blacklock.main`: strip, keep nonempty titles. -/
def blacklockEntries (slug : String) (acc : List RawCandidate)
    (victims : List BlEntry) : List RawCandidate :=
  victims.foldl (fun acc e =>
    if e.fullname.trim ≠ "" then
      acc ++ [⟨e.fullname.trim, e.desc.trim, some e.url1.trim, slug⟩]
    else acc) acc

/-- Function `blacklock.main`: each source file is processed inside `try`; a raised
exception skips that file only. A fragment is modelled as its slug together
with its parse outcome (the extracted victim list, or the exception). -/
def blacklock_main (frags : List (String × Except String (List BlEntry))) :
    List RawCandidate :=
  frags.foldl (fun acc f =>
    match f.2 with
    | .error _ => acc
    | .ok victims => blacklockEntries f.1 acc victims) []

/-- One `<article>` of `medusalocker`: optional link href, optional title
text, optional content text (each `None` when the tag is missing). -/
structure MlArticle where
  link : Option String
  title : Option String
  content : Option String
deriving DecidableEq, Repr

/-- The inner article loop of `medusalocker.main`: a per-article `try`
skips a throwing article; otherwise keep nonempty stripped titles. -/
def medusalockerArticles (slug : String) (acc : List RawCandidate)
    (arts : List (Except String MlArticle)) : List RawCandidate :=
  arts.foldl (fun acc a =>
    match a with
    | .error _ => acc
    | .ok art =>
      let title := (art.title.map String.trim).getD ""
      let description := (art.content.map String.trim).getD ""
      let link := art.link.getD ""
      if title ≠ "" then acc ++ [⟨title, description, some link, slug⟩]
      else acc) acc

/-- Function `medusalocker.main`: per-file `try` skips a throwing file. -/
def medusalocker_main
    (frags : List (String × Except String (List (Except String MlArticle)))) :
    List RawCandidate :=
  frags.foldl (fun acc f =>
    match f.2 with
    | .error _ => acc
    | .ok arts => medusalockerArticles f.1 acc arts) []

/-! ### The aggregator (`bin/parse.py`) -/

instance exceptDecEq {e a : Type} [DecidableEq e] [DecidableEq a] :
    DecidableEq (Except e a)
  | .error x, .error y =>
    if h : x = y then isTrue (by rw [h]) else isFalse (by simp [h])
  | .error _, .ok _ => isFalse (by simp)
  | .ok _, .error _ => isFalse (by simp)
  | .ok x, .ok y =>
    if h : x = y then isTrue (by rw [h]) else isFalse (by simp [h])

/-- A parser module as the aggregator sees it: `importlib.import_module`
may raise (it is evaluated before the `try`), and running `main()` plus
appending each entry may raise (inside the `try`). -/
structure PyModule where
  name : String
  importResult : Except String Unit
  run : Except String (List RawCandidate)
deriving DecidableEq, Repr

/-- The observable state of a parse run: the `(parser_name, entry)` pairs
passed to `appender`, and the parsers reported failed. -/
structure AggState where
  collected : List (String × RawCandidate)
  failures : List String
deriving DecidableEq, Repr

/-- The `try` body and its handler: entries appended on success, the
module name reported on failure, the loop always continuing. -/
def stepModule (st : AggState) (m : PyModule) : AggState :=
  match m.run with
  | .ok entries =>
    { st with collected := st.collected ++ entries.map (fun e => (m.name, e)) }
  | .error _ => { st with failures := st.failures ++ [m.name] }

/-- The module loop of `bin/parse.py`: the import is evaluated outside the
`try`, so an import failure propagates out of the loop and aborts the run. -/
def runModules (st : AggState) : List PyModule → Except String AggState
  | [] => .ok st
  | m :: rest =>
    match m.importResult with
    | .error e => .error e
    | .ok _ => runModules (stepModule st m) rest

/-! ## Theorems -/

/-! ### Round-trip of the canonical output format -/

theorem charVal_digitChar {d : Nat} (h : d < 10) : charVal (digitChar d) = d := by
  interval_cases d <;> decide

theorem isDigit_digitChar {d : Nat} (h : d < 10) : (digitChar d).isDigit = true := by
  interval_cases d <;> decide

theorem takeDigits_of_digits :
    ∀ (ds r : List Char), (∀ c ∈ ds, c.isDigit) →
      takeDigits ds.length (ds ++ r) = (ds, r) := by
  intro ds
  induction ds with
  | nil => intro r _; rfl
  | cons c l ih =>
    intro r h
    have hc : c.isDigit := h c (List.mem_cons_self c l)
    simp only [List.length_cons, List.cons_append, takeDigits, hc, if_true]
    rw [show l.append r = l ++ r from rfl, ih r (fun x hx => h x (List.mem_cons_of_mem c hx))]

theorem toPadded_length : ∀ (w n : Nat), (toPadded w n).length = w := by
  intro w
  induction w with
  | zero => intro n; rfl
  | succ w ih =>
    intro n
    simp [toPadded, ih]

theorem toPadded_digits : ∀ (w n : Nat), ∀ c ∈ toPadded w n, c.isDigit := by
  intro w
  induction w with
  | zero => intro n c hc; simp [toPadded] at hc
  | succ w ih =>
    intro n c hc
    simp only [toPadded, List.mem_append, List.mem_singleton] at hc
    rcases hc with hc | hc
    · exact ih _ c hc
    · subst hc; exact isDigit_digitChar (Nat.mod_lt n (by omega))

theorem valOf_append (l : List Char) (c : Char) :
    valOf (l ++ [c]) = valOf l * 10 + charVal c := by
  simp [valOf, List.foldl_append]

theorem valOf_toPadded : ∀ (w n : Nat), n < 10 ^ w → valOf (toPadded w n) = n := by
  intro w
  induction w with
  | zero => intro n h; simp [toPadded, valOf]; omega
  | succ w ih =>
    intro n h
    have hdiv : n / 10 < 10 ^ w := by
      rw [Nat.div_lt_iff_lt_mul (by omega)]
      calc n < 10 ^ (w + 1) := h
        _ = 10 ^ w * 10 := by ring
    rw [toPadded, valOf_append, ih _ hdiv, charVal_digitChar (Nat.mod_lt n (by omega))]
    omega

theorem takeDigits_toPadded (w n : Nat) (r : List Char) :
    takeDigits w (toPadded w n ++ r) = (toPadded w n, r) := by
  have h := takeDigits_of_digits (toPadded w n) r (toPadded_digits w n)
  rwa [toPadded_length] at h

theorem parseFixed_pad {w n : Nat} (h : n < 10 ^ w) (r : List Char) :
    parseFixed w (toPadded w n ++ r) = some (n, r) := by
  simp [parseFixed, takeDigits_toPadded, toPadded_length, valOf_toPadded w n h]

theorem parseFlex_pad {w n : Nat} (hw : 0 < w) (h : n < 10 ^ w) (r : List Char) :
    parseFlex w (toPadded w n ++ r) = some (n, r) := by
  simp [parseFlex, takeDigits_toPadded, toPadded_length, valOf_toPadded w n h]
  omega

theorem parseFlex_pad_nil {w n : Nat} (hw : 0 < w) (h : n < 10 ^ w) :
    parseFlex w (toPadded w n) = some (n, []) := by
  have := parseFlex_pad hw h []
  rwa [List.append_nil] at this

theorem parseFrac_pad_nil {n : Nat} (h : n < 10 ^ 6) :
    parseFrac (toPadded 6 n) = some (n, []) := by
  have h6 : takeDigits 6 (toPadded 6 n) = (toPadded 6 n, []) := by
    have := takeDigits_toPadded 6 n []
    rwa [List.append_nil] at this
  simp [parseFrac, h6, toPadded_length, valOf_toPadded 6 n h]

theorem lit_cons (c : Char) (l : List Char) : lit c (c :: l) = some l := by
  simp [lit]

theorem mkDatetime_self {dt : PyDateTime} (h : dt.Valid) :
    mkDatetime dt.year dt.month dt.day dt.hour dt.minute dt.second dt.microsecond
      = some dt := by
  cases dt
  simp only [mkDatetime]
  rw [if_pos h]

theorem mkDatetime_valid {y mo d h mi s us : Nat} {dt : PyDateTime}
    (hmk : mkDatetime y mo d h mi s us = some dt) : dt.Valid := by
  simp only [mkDatetime] at hmk
  split at hmk
  · cases hmk; assumption
  · cases hmk

theorem lit_nil (c : Char) : lit c [] = none := rfl

theorem daysInMonth_le (y m : Nat) : daysInMonth y m ≤ 31 := by
  unfold daysInMonth
  split
  · split <;> omega
  · split <;> omega

theorem strptime_format_frac {dt : PyDateTime} (hv : dt.Valid) (hus : dt.microsecond ≠ 0) :
    strptimeDT ' ' true (formatDT dt) = some dt := by
  obtain ⟨h1, h2, h3, h4, h5, h6, h7, h8, h9, h10⟩ := hv
  have hd31 := daysInMonth_le dt.year dt.month
  simp only [formatDT, if_pos hus, strptimeDT,
    parseFixed_pad (show dt.year < 10 ^ 4 by omega),
    parseFlex_pad (by omega : (0:Nat) < 2) (show dt.month < 10 ^ 2 by omega),
    parseFlex_pad (by omega : (0:Nat) < 2) (show dt.day < 10 ^ 2 by omega),
    parseFlex_pad (by omega : (0:Nat) < 2) (show dt.hour < 10 ^ 2 by omega),
    parseFlex_pad (by omega : (0:Nat) < 2) (show dt.minute < 10 ^ 2 by omega),
    parseFlex_pad (by omega : (0:Nat) < 2) (show dt.second < 10 ^ 2 by omega),
    parseFrac_pad_nil (show dt.microsecond < 10 ^ 6 by omega),
    lit_cons, Option.bind_eq_bind, Option.some_bind, List.isEmpty_nil, if_true]
  exact mkDatetime_self ⟨h1, h2, h3, h4, h5, h6, h7, h8, h9, h10⟩

theorem strptime_format_nofrac_fail {dt : PyDateTime} (hv : dt.Valid)
    (hus : dt.microsecond = 0) : strptimeDT ' ' true (formatDT dt) = none := by
  obtain ⟨h1, h2, h3, h4, h5, h6, h7, h8, h9, h10⟩ := hv
  have hd31 := daysInMonth_le dt.year dt.month
  simp only [formatDT, hus, ne_eq, not_true_eq_false, if_false, strptimeDT,
    parseFixed_pad (show dt.year < 10 ^ 4 by omega),
    parseFlex_pad (by omega : (0:Nat) < 2) (show dt.month < 10 ^ 2 by omega),
    parseFlex_pad (by omega : (0:Nat) < 2) (show dt.day < 10 ^ 2 by omega),
    parseFlex_pad (by omega : (0:Nat) < 2) (show dt.hour < 10 ^ 2 by omega),
    parseFlex_pad (by omega : (0:Nat) < 2) (show dt.minute < 10 ^ 2 by omega),
    parseFlex_pad (by omega : (0:Nat) < 2) (show dt.second < 10 ^ 2 by omega),
    lit_cons, lit_nil, Option.bind_eq_bind, Option.some_bind, Option.none_bind, if_true]

theorem strptime_format_nofrac {dt : PyDateTime} (hv : dt.Valid)
    (hus : dt.microsecond = 0) : strptimeDT ' ' false (formatDT dt) = some dt := by
  obtain ⟨h1, h2, h3, h4, h5, h6, h7, h8, h9, h10⟩ := hv
  have hd31 := daysInMonth_le dt.year dt.month
  simp only [formatDT, hus, ne_eq, not_true_eq_false, if_false, strptimeDT,
    parseFixed_pad (show dt.year < 10 ^ 4 by omega),
    parseFlex_pad (by omega : (0:Nat) < 2) (show dt.month < 10 ^ 2 by omega),
    parseFlex_pad (by omega : (0:Nat) < 2) (show dt.day < 10 ^ 2 by omega),
    parseFlex_pad (by omega : (0:Nat) < 2) (show dt.hour < 10 ^ 2 by omega),
    parseFlex_pad (by omega : (0:Nat) < 2) (show dt.minute < 10 ^ 2 by omega),
    parseFlex_pad (by omega : (0:Nat) < 2) (show dt.second < 10 ^ 2 by omega),
    lit_cons, Option.bind_eq_bind, Option.some_bind, List.isEmpty_nil,
    Bool.false_eq_true, if_false, if_true]
  have := mkDatetime_self ⟨h1, h2, h3, h4, h5, h6, h7, h8, h9, h10⟩
  rwa [hus] at this

/-- Re-parsing the canonical output recovers the same datetime, via the
first or second `strptime` pattern. -/
theorem strptimeAny_format {dt : PyDateTime} (hv : dt.Valid) :
    strptimeAny (formatDT dt) = some dt := by
  unfold strptimeAny
  by_cases hus : dt.microsecond = 0
  · rw [strptime_format_nofrac_fail hv hus, strptime_format_nofrac hv hus]
  · rw [strptime_format_frac hv hus]

theorem strptimeDT_valid {sep : Char} {f : Bool} {l : List Char} {dt : PyDateTime}
    (h : strptimeDT sep f l = some dt) : dt.Valid := by
  simp only [strptimeDT, Option.bind_eq_bind, Option.bind_eq_some, Prod.exists] at h
  obtain ⟨y, r1, -, r2, -, mo, r3, -, r4, -, d, r5, -, r6, -, hh, r7, -, r8, -,
    mi, r9, -, r10, -, s, r11, -, h⟩ := h
  split at h
  · simp only [Option.bind_eq_bind, Option.bind_eq_some, Prod.exists] at h
    obtain ⟨r12, -, us, r13, -, h⟩ := h
    split at h
    · exact mkDatetime_valid h
    · cases h
  · split at h
    · exact mkDatetime_valid h
    · cases h

theorem strptimeAny_valid {l : List Char} {dt : PyDateTime}
    (h : strptimeAny l = some dt) : dt.Valid := by
  unfold strptimeAny at h
  split at h
  · cases h; exact strptimeDT_valid (by assumption)
  · split at h
    · cases h; exact strptimeDT_valid (by assumption)
    · split at h
      · cases h; exact strptimeDT_valid (by assumption)
      · exact strptimeDT_valid h

theorem fromisoformat_valid {l : List Char} {dt : PyDateTime}
    (h : fromisoformat l = some dt) : dt.Valid := by
  simp only [fromisoformat, Option.bind_eq_bind, Option.bind_eq_some, Prod.exists] at h
  obtain ⟨y, r1, -, r2, -, mo, r3, -, r4, -, d, r5, -, h⟩ := h
  split at h
  · exact mkDatetime_valid h
  · simp only [Option.bind_eq_bind, Option.bind_eq_some, Prod.exists] at h
    obtain ⟨hh, mi, s, us, -, h⟩ := h
    exact mkDatetime_valid h

theorem data_asString (l : List Char) : (l.asString).data = l := rfl

/-- Idempotence: `normalize_date` is idempotent: re-normalizing its output changes
nothing, because the canonical output re-parses (to the same value) under
the first or second `strptime` pattern, and unparseable input is returned
verbatim. -/
theorem normalize_date_idem (s : String) :
    normalize_date (normalize_date s) = normalize_date s := by
  cases h1 : strptimeAny s.data with
  | some dt =>
    have hv := strptimeAny_valid h1
    have e1 : normalize_date s = (formatDT dt).asString := by
      simp only [normalize_date, h1]
    rw [e1]
    simp only [normalize_date, data_asString, strptimeAny_format hv]
  | none =>
    cases h2 : fromisoformat s.data with
    | some dt =>
      have hv := fromisoformat_valid h2
      have e1 : normalize_date s = (formatDT dt).asString := by
        simp only [normalize_date, h1, h2]
      rw [e1]
      simp only [normalize_date, data_asString, strptimeAny_format hv]
    | none =>
      have e1 : normalize_date s = s := by
        simp only [normalize_date, h1, h2]
      rw [e1, e1]

theorem leB_refl : ∀ l : List Char, leB l l = true := by
  intro l
  induction l with
  | nil => rfl
  | cons x xs ih => simp [leB, ih]

theorem leB_total : ∀ a b : List Char, leB a b = true ∨ leB b a = true := by
  intro a
  induction a with
  | nil => intro b; exact Or.inl rfl
  | cons x xs ih =>
    intro b
    cases b with
    | nil => exact Or.inr rfl
    | cons y ys =>
      simp only [leB]
      rcases Nat.lt_trichotomy x.toNat y.toNat with h | h | h
      · left; simp [h]
      · have h1 : ¬ x.toNat < y.toNat := by omega
        have h2 : ¬ y.toNat < x.toNat := by omega
        rcases ih ys with hc | hc
        · left; simp [h1, h2, hc]
        · right; simp [h1, h2, hc]
      · right; simp [h]

theorem leB_trans : ∀ a b c : List Char,
    leB a b = true → leB b c = true → leB a c = true := by
  intro a
  induction a with
  | nil => intro b c _ _; rfl
  | cons x xs ih =>
    intro b c hab hbc
    cases b with
    | nil => simp [leB] at hab
    | cons y ys =>
      cases c with
      | nil => simp [leB] at hbc
      | cons z zs =>
        simp only [leB] at hab hbc ⊢
        rcases Nat.lt_trichotomy x.toNat y.toNat with h1 | h1 | h1
        · rcases Nat.lt_trichotomy y.toNat z.toNat with h2 | h2 | h2
          · simp [show x.toNat < z.toNat by omega]
          · simp [show x.toNat < z.toNat by omega]
          · rw [if_neg (by omega), if_pos (by omega)] at hbc
            cases hbc
        · rcases Nat.lt_trichotomy y.toNat z.toNat with h2 | h2 | h2
          · simp [show x.toNat < z.toNat by omega]
          · rw [if_neg (by omega), if_neg (by omega)] at hab
            rw [if_neg (by omega), if_neg (by omega)] at hbc
            rw [if_neg (by omega), if_neg (by omega)]
            exact ih ys zs hab hbc
          · rw [if_neg (by omega), if_pos (by omega)] at hbc
            cases hbc
        · rw [if_neg (by omega), if_pos (by omega)] at hab
          cases hab

/-- Evaluating the fold at one group only ever applies `addPost` for the
records routed to that group. -/
theorem foldl_stepIn_apply (incoming : List InPost) (G : String → List Post)
    (g : String) :
    (incoming.foldl stepIn G) g =
      (incoming.filter (fun q => effGroup q = some g)).foldl addPost (G g) := by
  induction incoming generalizing G with
  | nil => rfl
  | cons q B ih =>
    simp only [List.foldl_cons, List.filter_cons]
    by_cases hq : effGroup q = some g
    · rw [if_pos (by simpa using hq)]
      rw [ih]
      simp only [List.foldl_cons]
      congr 1
      simp only [stepIn]
      cases hg : effGroup q with
      | none => rw [hg] at hq; cases hq
      | some g' =>
        rw [hg] at hq
        cases hq
        simp
    · rw [if_neg (by simpa using hq)]
      rw [ih]
      congr 1
      simp only [stepIn]
      cases hg : effGroup q with
      | none => rfl
      | some g' =>
        rw [hg] at hq
        have hne : g ≠ g' := fun h => hq (by rw [h])
        simp [hne]

theorem mergedLists_apply (existing : String → List Post) (incoming : List InPost)
    (g : String) :
    mergedLists existing incoming g =
      (incoming.filter (fun q => effGroup q = some g)).foldl addPost
        ((existing g).map renorm) :=
  foldl_stepIn_apply incoming _ g

theorem addPost_cases (l : List Post) (q : InPost) :
    addPost l q = l ∨ addPost l q = l ++ [toPost q] := by
  simp only [addPost]
  split
  · exact Or.inl rfl
  · split
    · exact Or.inl rfl
    · exact Or.inr rfl

/-- Merging only ever appends: the initial list is a prefix of the result
and the appended tail is a subsequence of the incoming records (in input
order). -/
theorem foldl_addPost_extend (l : List InPost) (init : List Post) :
    ∃ t, l.foldl addPost init = init ++ t ∧ t.Sublist (l.map toPost) := by
  induction l generalizing init with
  | nil => exact ⟨[], by simp⟩
  | cons q B ih =>
    rcases addPost_cases init q with h | h
    · obtain ⟨t, ht, hs⟩ := ih init
      exact ⟨t, by simpa [h] using ht, hs.trans (by simp)⟩
    · obtain ⟨t, ht, hs⟩ := ih (init ++ [toPost q])
      refine ⟨toPost q :: t, ?_, ?_⟩
      · simp only [List.foldl_cons, h, ht, List.append_assoc, List.singleton_append]
      · simpa using List.Sublist.cons₂ (toPost q) hs

theorem mem_foldl_addPost {p : Post} {init : List Post} (l : List InPost)
    (h : p ∈ init) : p ∈ l.foldl addPost init := by
  obtain ⟨t, ht, -⟩ := foldl_addPost_extend l init
  rw [ht]
  exact List.mem_append_left t h

theorem addPost_of_title_mem {l : List Post} {q : InPost}
    (h : ∃ p ∈ l, p.post_title = (toPost q).post_title) : addPost l q = l := by
  simp only [addPost]
  split
  · rfl
  · rw [if_pos]
    obtain ⟨p, hp, hT⟩ := h
    exact List.any_eq_true.mpr ⟨p, hp, by simp [hT]⟩

theorem addPost_of_title_empty {l : List Post} {q : InPost}
    (h : (toPost q).post_title = "") : addPost l q = l := by
  simp only [addPost]
  rw [if_pos h]

/-- First-seen wins: once a title is present, every later record with that
title is skipped, so titles are stable under further merging. -/
theorem title_mem_foldl_addPost {T : String} {init : List Post} (l : List InPost)
    (h : ∃ p ∈ init, p.post_title = T) :
    ∃ p ∈ l.foldl addPost init, p.post_title = T := by
  obtain ⟨p, hp, hT⟩ := h
  exact ⟨p, mem_foldl_addPost l hp, hT⟩

/-- A record whose title is already present (or empty) contributes nothing. -/
theorem foldl_addPost_skip {init : List Post} {q : InPost} (B1 B2 : List InPost)
    (h : (toPost q).post_title = "" ∨
      ∃ p ∈ init, p.post_title = (toPost q).post_title) :
    (B1 ++ q :: B2).foldl addPost init = (B1 ++ B2).foldl addPost init := by
  rw [List.foldl_append, List.foldl_append, List.foldl_cons]
  congr 1
  rcases h with h | h
  · exact addPost_of_title_empty h
  · obtain ⟨p, hp, hT⟩ := h
    exact addPost_of_title_mem ⟨p, mem_foldl_addPost B1 hp, hT⟩

/-- Uniqueness is preserved: if no two posts of the initial list share a
title, the same holds after merging any batch. -/
theorem foldl_addPost_pairwise {init : List Post} (l : List InPost)
    (h : init.Pairwise (fun p q => p.post_title ≠ q.post_title)) :
    (l.foldl addPost init).Pairwise (fun p q => p.post_title ≠ q.post_title) := by
  induction l generalizing init with
  | nil => exact h
  | cons q B ih =>
    rw [List.foldl_cons]
    refine ih ?_
    simp only [addPost]
    split
    · exact h
    · split
      · exact h
      · next hany =>
        rw [List.pairwise_append]
        refine ⟨h, List.pairwise_singleton _ _, ?_⟩
        intro p hp x hx
        rw [List.mem_singleton] at hx
        subst hx
        intro hEq
        exact hany (List.any_eq_true.mpr ⟨p, hp, by simp [hEq]⟩)

/-- A batch each of whose records is already covered (empty title or title
present) merges to nothing. -/
theorem foldl_addPost_id {init : List Post} (l : List InPost)
    (h : ∀ q ∈ l, (toPost q).post_title = "" ∨
      ∃ p ∈ init, p.post_title = (toPost q).post_title) :
    l.foldl addPost init = init := by
  induction l with
  | nil => rfl
  | cons q B ih =>
    rw [List.foldl_cons]
    have hq := h q (List.mem_cons_self q B)
    have hskip : addPost init q = init := by
      rcases hq with hq | hq
      · exact addPost_of_title_empty hq
      · exact addPost_of_title_mem hq
    rw [hskip]
    exact ih (fun q hq' => h q (List.mem_cons_of_mem _ hq'))

/-- After one merge every nonempty incoming title is present in the result. -/
theorem title_present_after_foldl {init : List Post} {q : InPost} (l : List InPost)
    (hq : q ∈ l) (hne : (toPost q).post_title ≠ "") :
    ∃ p ∈ l.foldl addPost init, p.post_title = (toPost q).post_title := by
  induction l generalizing init with
  | nil => cases hq
  | cons x B ih =>
    rw [List.foldl_cons]
    rcases List.mem_cons.mp hq with hq | hq
    · subst hq
      by_cases hmem : ∃ p ∈ init, p.post_title = (toPost q).post_title
      · obtain ⟨p, hp, hT⟩ := hmem
        exact ⟨p, mem_foldl_addPost B (by rw [addPost_of_title_mem ⟨p, hp, hT⟩]; exact hp), hT⟩
      · have : addPost init q = init ++ [toPost q] := by
          simp only [addPost]
          rw [if_neg hne, if_neg]
          simp only [List.any_eq_true, not_exists, not_and]
          intro p hp
          simp only [decide_eq_true_eq]
          intro hEq
          exact hmem ⟨p, hp, hEq⟩
        rw [this]
        exact ⟨toPost q, mem_foldl_addPost B (by simp), rfl⟩
    · exact ih hq

/-! ### Stability of the sort -/

/-- Inserting into any list commutes with filtering by an exact sort key:
elements skipped by `orderedInsert` have a strictly smaller key. -/
theorem filter_orderedInsert_disc (a : Post) (l : List Post) (d : String) :
    (List.orderedInsert discLe a l).filter (fun p => p.discovered = d) =
      if a.discovered = d then a :: l.filter (fun p => p.discovered = d)
      else l.filter (fun p => p.discovered = d) := by
  induction l with
  | nil =>
    simp only [List.orderedInsert, List.filter]
    split <;> simp_all
  | cons b t ih =>
    simp only [List.orderedInsert]
    by_cases hab : discLe a b
    · rw [if_pos hab]
      simp only [List.filter]
      split <;> split <;> simp_all
    · rw [if_neg hab]
      have hne : b.discovered ≠ a.discovered := by
        intro h
        exact hab (show discLe a b by unfold discLe; rw [h]; exact leB_refl _)
      simp only [List.filter_cons, ih]
      by_cases had : a.discovered = d
      · have hbd : ¬ b.discovered = d := fun h => hne (h.trans had.symm)
        simp [had, hbd]
      · simp [had]

/-- Python's sort is stable: posts with equal `discovered` keep their
relative (first-seen) order. -/
theorem filter_insertionSort_disc (l : List Post) (d : String) :
    (List.insertionSort discLe l).filter (fun p => p.discovered = d) =
      l.filter (fun p => p.discovered = d) := by
  induction l with
  | nil => rfl
  | cons a t ih =>
    simp only [List.insertionSort, filter_orderedInsert_disc, ih, List.filter_cons]
    by_cases had : a.discovered = d <;> simp [had]


/-! ### Helpers for reconciler idempotence -/

theorem renorm_renorm (p : Post) : renorm (renorm p) = renorm p := by
  simp [renorm, normalize_date_idem]

theorem renorm_toPost (q : InPost) : renorm (toPost q) = toPost q := by
  simp [renorm, toPost, normalize_date_idem]

/-- Every post of the pre-sort merged list is already normalized. -/
theorem mergedLists_renorm_fixed (E : String → List Post) (B : List InPost)
    (g : String) : ∀ p ∈ mergedLists E B g, renorm p = p := by
  rw [mergedLists_apply]
  obtain ⟨t, ht, hs⟩ := foldl_addPost_extend
    (B.filter (fun q => effGroup q = some g)) ((E g).map renorm)
  rw [ht]
  intro p hp
  rcases List.mem_append.mp hp with hp | hp
  · obtain ⟨p0, -, rfl⟩ := List.mem_map.mp hp
    exact renorm_renorm p0
  · obtain ⟨q0, -, rfl⟩ := List.mem_map.mp (hs.subset hp)
    exact renorm_toPost q0

/-! ### Claim theorems -/

/-- C1: merge preserves history — every post of the existing collection
appears in the merge result with only its `discovered` field re-normalized
(all other fields unchanged), and an incoming record whose `post_title`
matches an existing post of its group contributes nothing to the result
(the existing post's `discovered` is never overwritten). -/
theorem claim_C1_merge_preserves_history :
    (∀ (E : String → List Post) (B : List InPost) (g : String) (p : Post),
        p ∈ E g → renorm p ∈ dedupe_and_merge E B g) ∧
    (∀ (E : String → List Post) (B1 B2 : List InPost) (q : InPost) (g : String),
        effGroup q = some g →
        (∃ p ∈ E g, p.post_title = (toPost q).post_title) →
        ∀ g', dedupe_and_merge E (B1 ++ q :: B2) g' =
          dedupe_and_merge E (B1 ++ B2) g') := by
  constructor
  · intro E B g p hp
    unfold dedupe_and_merge
    rw [List.mem_insertionSort, mergedLists_apply]
    exact mem_foldl_addPost _ (List.mem_map_of_mem renorm hp)
  · intro E B1 B2 q g hg hex g'
    unfold dedupe_and_merge
    congr 1
    rw [mergedLists_apply, mergedLists_apply, List.filter_append,
      List.filter_append, List.filter_cons]
    by_cases hq : effGroup q = some g'
    · have hg' : g' = g := by
        rw [hq] at hg
        cases hg
        rfl
      subst hg'
      rw [if_pos (by simp [hq])]
      apply foldl_addPost_skip
      right
      obtain ⟨p, hp, hT⟩ := hex
      exact ⟨renorm p, List.mem_map_of_mem renorm hp, hT⟩
    · rw [if_neg (by simp [hq])]

/-- Closed instance of C1 at concrete inputs. -/
theorem claim_C1_witness :
    renorm ⟨"A", "2024-01-01 00:00:00", "", none, none, none⟩ ∈
      dedupe_and_merge
        (fun _ => [⟨"A", "2024-01-01 00:00:00", "", none, none, none⟩])
        [⟨some "g", some "B", some "2024-01-02 00:00:00", none, none, none, none⟩]
        "g" ∧
    dedupe_and_merge
        (fun _ => [⟨"A", "2024-01-01 00:00:00", "", none, none, none⟩])
        ([] ++ ⟨some "g", some "A", some "2024-01-05 00:00:00", none, none, none, none⟩ :: [])
        "g" =
      dedupe_and_merge
        (fun _ => [⟨"A", "2024-01-01 00:00:00", "", none, none, none⟩])
        ([] ++ []) "g" :=
  ⟨claim_C1_merge_preserves_history.1 _ _ "g" _ (by decide),
   claim_C1_merge_preserves_history.2 _ [] [] _ "g" (by decide)
     ⟨⟨"A", "2024-01-01 00:00:00", "", none, none, none⟩, by decide, by decide⟩ "g"⟩

/-- C2 counterexample: the reconciler does not deduplicate posts already
stored — two existing posts with the same title both survive an (empty)
merge, so the committed collection is not title-unique for every existing
store contents. -/
theorem claim_C2_counterexample :
    ¬ List.Pairwise (fun p q : Post => p.post_title ≠ q.post_title)
      (dedupe_and_merge
        (fun g => if g = "grp" then
            [⟨"A", "2024-01-01 00:00:00", "", none, none, none⟩,
             ⟨"A", "2024-01-01 00:00:00", "x", none, none, none⟩] else [])
        [] "grp") := by decide

/-- C2 (amended): uniqueness is an invariant the reconciler preserves, not
one it establishes — if no two posts of a group's existing collection share
a `post_title`, then no two posts of that group's merged collection do. -/
theorem claim_C2_uniqueness_preserved (E : String → List Post) (B : List InPost)
    (g : String)
    (h : (E g).Pairwise (fun p q => p.post_title ≠ q.post_title)) :
    (dedupe_and_merge E B g).Pairwise
      (fun p q => p.post_title ≠ q.post_title) := by
  unfold dedupe_and_merge
  refine ((List.perm_insertionSort discLe _).pairwise_iff
    (fun hne => Ne.symm hne)).mpr ?_
  rw [mergedLists_apply]
  apply foldl_addPost_pairwise
  exact (List.pairwise_map).mpr h

/-- Closed instance of C2 (amended) at concrete inputs. -/
theorem claim_C2_witness :
    (dedupe_and_merge
      (fun _ => [⟨"A", "2024-01-01 00:00:00", "", none, none, none⟩])
      [⟨some "g", some "A", some "2024-01-02 00:00:00", none, none, none, none⟩]
      "g").Pairwise (fun p q => p.post_title ≠ q.post_title) :=
  claim_C2_uniqueness_preserved _ _ "g" (by decide)

/-- C4: the reconciler is idempotent — merging the same batch a second time
against the already-merged store changes nothing (every title of the batch
is already present, so every record is skipped; re-normalization fixes
already-normalized dates; re-sorting a sorted list is the identity). -/
theorem claim_C4_reconciler_idempotent (E : String → List Post)
    (B : List InPost) (g : String) :
    dedupe_and_merge (dedupe_and_merge E B) B g = dedupe_and_merge E B g := by
  haveI : IsTotal Post discLe :=
    ⟨fun p q => leB_total p.discovered.data q.discovered.data⟩
  haveI : IsTrans Post discLe := ⟨fun _ _ _ h1 h2 => leB_trans _ _ _ h1 h2⟩
  have hfix := mergedLists_renorm_fixed E B g
  have hmapid : (dedupe_and_merge E B g).map renorm = dedupe_and_merge E B g := by
    rw [List.map_congr_left, List.map_id]
    intro p hp
    unfold dedupe_and_merge at hp
    rw [List.mem_insertionSort] at hp
    exact hfix p hp
  have hskip : (B.filter (fun q => effGroup q = some g)).foldl addPost
      (dedupe_and_merge E B g) = dedupe_and_merge E B g := by
    apply foldl_addPost_id
    intro q hq
    by_cases hti : (toPost q).post_title = ""
    · exact Or.inl hti
    · right
      obtain ⟨p, hp, hT⟩ := @title_present_after_foldl ((E g).map renorm) q
        (B.filter (fun q => effGroup q = some g)) hq hti
      refine ⟨p, ?_, hT⟩
      unfold dedupe_and_merge
      rw [List.mem_insertionSort, mergedLists_apply]
      exact hp
  have hsorted : List.Sorted discLe (dedupe_and_merge E B g) :=
    List.sorted_insertionSort discLe _
  conv_lhs => rw [dedupe_and_merge, mergedLists_apply, hmapid, hskip]
  exact hsorted.insertionSort_eq

/-- Closed instance of C4 at concrete inputs. -/
theorem claim_C4_witness :
    dedupe_and_merge
      (dedupe_and_merge
        (fun _ => [⟨"A", "2024-01-01 00:00:00", "", none, none, none⟩])
        [⟨some "g", some "B", some "2024-01-02", none, none, none, none⟩])
      [⟨some "g", some "B", some "2024-01-02", none, none, none, none⟩] "g" =
    dedupe_and_merge
      (fun _ => [⟨"A", "2024-01-01 00:00:00", "", none, none, none⟩])
      [⟨some "g", some "B", some "2024-01-02", none, none, none, none⟩] "g" :=
  claim_C4_reconciler_idempotent _ _ "g"

/-- C5: order invariant — each group's merged collection is sorted
non-decreasingly by the `discovered` string; posts with equal `discovered`
keep their first-seen order (the sort is stable with respect to the
pre-sort working list, which is the re-normalized existing collection
followed by the accepted batch records in input order). -/
theorem claim_C5_order_invariant (E : String → List Post) (B : List InPost)
    (g : String) :
    List.Sorted discLe (dedupe_and_merge E B g) ∧
    (∀ d : String,
      (dedupe_and_merge E B g).filter (fun p => p.discovered = d) =
        (mergedLists E B g).filter (fun p => p.discovered = d)) ∧
    (∃ t, mergedLists E B g = (E g).map renorm ++ t ∧
      t.Sublist ((B.filter (fun q => effGroup q = some g)).map toPost)) := by
  haveI : IsTotal Post discLe :=
    ⟨fun p q => leB_total p.discovered.data q.discovered.data⟩
  haveI : IsTrans Post discLe := ⟨fun _ _ _ h1 h2 => leB_trans _ _ _ h1 h2⟩
  refine ⟨List.sorted_insertionSort discLe _,
    fun d => filter_insertionSort_disc _ d, ?_⟩
  rw [mergedLists_apply]
  exact foldl_addPost_extend _ _

/-- Closed instance of C5 at concrete inputs. -/
theorem claim_C5_witness :
    List.Sorted discLe (dedupe_and_merge
      (fun _ => [⟨"A", "2024-01-03 00:00:00", "", none, none, none⟩])
      [⟨some "g", some "B", some "2024-01-02 00:00:00", none, none, none, none⟩]
      "g") :=
  (claim_C5_order_invariant _ _ "g").1

/-- C6: timestamp normalization is idempotent. -/
theorem claim_C6_normalize_date_idempotent (s : String) :
    normalize_date (normalize_date s) = normalize_date s :=
  normalize_date_idem s

/-- Closed instance of C6 at a concrete input. -/
theorem claim_C6_witness :
    normalize_date (normalize_date "2024-03-01T12:00:00.123456") =
      normalize_date "2024-03-01T12:00:00.123456" :=
  claim_C6_normalize_date_idempotent "2024-03-01T12:00:00.123456"

/-- C3: timestamp canonicalization — an already-canonical timestamp is
returned unchanged, a `T`-separated microsecond timestamp is rewritten
with a space separator keeping 6-digit microseconds, an unparseable string
is returned verbatim, and in general whenever all patterns and the ISO
fallback fail the input is preserved unmodified. -/
theorem claim_C3_timestamp_canonicalization :
    normalize_date "2024-03-01 12:00:00" = "2024-03-01 12:00:00" ∧
    normalize_date "2024-03-01T12:00:00.123456" = "2024-03-01 12:00:00.123456" ∧
    normalize_date "unknown" = "unknown" ∧
    (∀ s : String, strptimeAny s.data = none → fromisoformat s.data = none →
      normalize_date s = s) := by
  refine ⟨by decide, by decide, by decide, ?_⟩
  intro s h1 h2
  simp [normalize_date, h1, h2]

/-- Closed instance of C3's fallback clause at a concrete input. -/
theorem claim_C3_witness : normalize_date "not a date" = "not a date" :=
  claim_C3_timestamp_canonicalization.2.2.2 "not a date" (by decide) (by decide)

/-- C10: a date-only ISO string matches none of the four `strptime`
patterns but parses under the ISO fallback, so it is expanded to midnight
rather than preserved verbatim. -/
theorem claim_C10_date_only_expansion :
    normalize_date "2024-03-01" = "2024-03-01 00:00:00" ∧
    normalize_date "2024-03-01" ≠ "2024-03-01" :=
  ⟨by decide, by decide⟩

/-- Candidates produced by the `silentransomgroup` block loop either were
already accumulated or passed the ellipsis filter. -/
theorem srg_foldl_excludes (slug : String) :
    ∀ (blocks : List (Option String × Option String))
      (acc : List RawCandidate) (c : RawCandidate),
      c ∈ blocks.foldl (srgBlockStep slug) acc →
      c ∈ acc ∨ pyIn "..." c.title = false := by
  intro blocks
  induction blocks with
  | nil => intro acc c hc; exact Or.inl hc
  | cons b bs ih =>
    intro acc c hc
    rw [List.foldl_cons] at hc
    rcases ih _ c hc with hc' | hc'
    · simp only [srgBlockStep] at hc'
      split at hc'
      · next hcond =>
        rcases List.mem_append.mp hc' with h | h
        · exact Or.inl h
        · rw [List.mem_singleton] at h
          subst h
          exact Or.inr hcond.2
      · exact Or.inl hc'
    · exact Or.inr hc'

/-- C7 counterexample: `flocker.main` applies no ellipsis filter — a
truncated title `"Acme Corp..."` is emitted as a candidate. -/
theorem claim_C7_counterexample :
    flocker_fragment "flocker-1" [("Acme Corp...", "http://x", "d")] =
      [⟨"Acme Corp...", "d", some "http://x", "flocker-1"⟩] ∧
    pyIn "..." "Acme Corp..." = true :=
  ⟨by decide, by decide⟩

/-- C7 (amended): the truncated-title exclusion is specific to
`silentransomgroup` — its extractor never emits a candidate whose title
contains a literal `"..."`, while `flocker` (like the other extractors)
emits any candidate with a nonempty title, ellipsis or not. -/
theorem claim_C7_truncated_title_exclusion :
    (∀ (slug : String) (blocks : List (Option String × Option String))
        (c : RawCandidate), c ∈ silentransomgroup_fragment slug blocks →
        pyIn "..." c.title = false) ∧
    (∀ (slug t l d : String), t ≠ "" →
        (⟨t, d, some l, slug⟩ : RawCandidate) ∈
          flocker_fragment slug [(t, l, d)]) := by
  constructor
  · intro slug blocks c hc
    rcases srg_foldl_excludes slug blocks [] c hc with h | h
    · cases h
    · exact h
  · intro slug t l d ht
    simp [flocker_fragment, flockerEntryStep, ht]

/-- Closed instance of C7 (amended) at concrete inputs. -/
theorem claim_C7_witness :
    pyIn "..." (RawCandidate.title ⟨"Acme Corp", "d", none, "srg-1"⟩) = false ∧
    (⟨"Acme Corp...", "d", some "u", "flocker-1"⟩ : RawCandidate) ∈
      flocker_fragment "flocker-1" [("Acme Corp...", "u", "d")] :=
  ⟨claim_C7_truncated_title_exclusion.1 "srg-1" [(some "Acme Corp", some "d")]
      ⟨"Acme Corp", "d", none, "srg-1"⟩ (by decide),
   claim_C7_truncated_title_exclusion.2 "flocker-1" "Acme Corp..." "u" "d"
      (by decide)⟩

/-- C8 counterexample: in `bin/parse.py` the `importlib.import_module`
call sits outside the `try`, so an exception raised while loading the
second module aborts the loop — the third module is never processed and
the run does not continue. -/
theorem claim_C8_counterexample :
    runModules ⟨[], []⟩
      [⟨"alpha", .ok (), .ok []⟩,
       ⟨"beta", .error "boom", .ok []⟩,
       ⟨"gamma", .ok (), .ok [⟨"T", "", none, "s"⟩]⟩] = .error "boom" := rfl

/-- C8 (amended): exceptions raised while running a module's `main()` or
appending its entries are caught and recorded, and the run continues with
all remaining modules; an exception raised while importing a module,
however, is not caught. When every import succeeds the batch always
completes, visiting every module. -/
theorem claim_C8_aggregator_fault_isolation (st : AggState)
    (ms : List PyModule) (h : ∀ m ∈ ms, m.importResult = .ok ()) :
    runModules st ms = .ok (ms.foldl stepModule st) := by
  induction ms generalizing st with
  | nil => rfl
  | cons m rest ih =>
    have hm := h m (List.mem_cons_self m rest)
    simp only [runModules, hm, List.foldl_cons]
    exact ih _ (fun m' hm' => h m' (List.mem_cons_of_mem _ hm'))

/-- Closed instance of C8 (amended): a failing `main()` is recorded and the
following module still runs. -/
theorem claim_C8_witness :
    runModules ⟨[], []⟩
      [⟨"alpha", .ok (), .error "parse fail"⟩,
       ⟨"gamma", .ok (), .ok [⟨"T", "", none, "s"⟩]⟩] =
      .ok ⟨[("gamma", ⟨"T", "", none, "s"⟩)], ["alpha"]⟩ :=
  claim_C8_aggregator_fault_isolation ⟨[], []⟩
    [⟨"alpha", .ok (), .error "parse fail"⟩,
     ⟨"gamma", .ok (), .ok [⟨"T", "", none, "s"⟩]⟩] (by decide)

/-- Fold steps that only append preserve already-collected candidates. -/
theorem foldl_append_acc {b : Type}
    (step : List RawCandidate → b → List RawCandidate)
    (hstep : ∀ acc x, ∃ t, step acc x = acc ++ t) :
    ∀ (l : List b) (acc : List RawCandidate),
      ∃ t, l.foldl step acc = acc ++ t := by
  intro l
  induction l with
  | nil => intro acc; exact ⟨[], by simp⟩
  | cons x xs ih =>
    intro acc
    obtain ⟨t1, ht1⟩ := hstep acc x
    obtain ⟨t2, ht2⟩ := ih (step acc x)
    exact ⟨t1 ++ t2, by rw [List.foldl_cons, ht2, ht1, List.append_assoc]⟩

theorem blacklockEntries_acc (slug : String) (acc : List RawCandidate)
    (victims : List BlEntry) :
    ∃ t, blacklockEntries slug acc victims = acc ++ t := by
  apply foldl_append_acc
  intro acc e
  dsimp only
  split
  · exact ⟨_, rfl⟩
  · exact ⟨[], by simp⟩

theorem medusalockerArticles_acc (slug : String) (acc : List RawCandidate)
    (arts : List (Except String MlArticle)) :
    ∃ t, medusalockerArticles slug acc arts = acc ++ t := by
  apply foldl_append_acc
  intro acc a
  cases a with
  | error e => exact ⟨[], by simp⟩
  | ok art =>
    dsimp only
    split
    · exact ⟨_, rfl⟩
    · exact ⟨[], by simp⟩

theorem blacklock_step_acc (acc : List RawCandidate)
    (f : String × Except String (List BlEntry)) :
    ∃ t, (match f.2 with
      | .error _ => acc
      | .ok victims => blacklockEntries f.1 acc victims) = acc ++ t := by
  cases hf : f.2 with
  | error e => exact ⟨[], by simp⟩
  | ok victims => exact blacklockEntries_acc f.1 acc victims

theorem medusalocker_step_acc (acc : List RawCandidate)
    (f : String × Except String (List (Except String MlArticle))) :
    ∃ t, (match f.2 with
      | .error _ => acc
      | .ok arts => medusalockerArticles f.1 acc arts) = acc ++ t := by
  cases hf : f.2 with
  | error e => exact ⟨[], by simp⟩
  | ok arts => exact medusalockerArticles_acc f.1 acc arts

/-- C9: per-fragment fault isolation — for both `blacklock` and
`medusalocker`, a fragment whose parse raises is simply skipped: the
extraction result equals the run without that fragment, and every
candidate collected from the preceding fragments is still present. -/
theorem claim_C9_fragment_failure_isolation :
    (∀ (pre post : List (String × Except String (List BlEntry))) (s e : String),
      blacklock_main (pre ++ (s, .error e) :: post) =
        blacklock_main (pre ++ post) ∧
      ∀ c ∈ blacklock_main pre,
        c ∈ blacklock_main (pre ++ (s, .error e) :: post)) ∧
    (∀ (pre post : List (String × Except String (List (Except String MlArticle))))
        (s e : String),
      medusalocker_main (pre ++ (s, .error e) :: post) =
        medusalocker_main (pre ++ post) ∧
      ∀ c ∈ medusalocker_main pre,
        c ∈ medusalocker_main (pre ++ (s, .error e) :: post)) := by
  constructor
  · intro pre post s e
    constructor
    · simp only [blacklock_main, List.foldl_append, List.foldl_cons]
    · intro c hc
      simp only [blacklock_main, List.foldl_append, List.foldl_cons]
      obtain ⟨t, ht⟩ := foldl_append_acc _ blacklock_step_acc post
        (List.foldl _ [] pre)
      rw [ht]
      exact List.mem_append_left t hc
  · intro pre post s e
    constructor
    · simp only [medusalocker_main, List.foldl_append, List.foldl_cons]
    · intro c hc
      simp only [medusalocker_main, List.foldl_append, List.foldl_cons]
      obtain ⟨t, ht⟩ := foldl_append_acc _ medusalocker_step_acc post
        (List.foldl _ [] pre)
      rw [ht]
      exact List.mem_append_left t hc

/-- Closed instance of C9 at concrete inputs. -/
theorem claim_C9_witness :
    blacklock_main
      [("blacklock-1", .ok [⟨"V1", "", ""⟩]), ("blacklock-2", .error "boom"),
       ("blacklock-3", .ok [⟨"V3", "", ""⟩])] =
    blacklock_main
      [("blacklock-1", .ok [⟨"V1", "", ""⟩]),
       ("blacklock-3", .ok [⟨"V3", "", ""⟩])] :=
  ((claim_C9_fragment_failure_isolation.1
    [("blacklock-1", .ok [⟨"V1", "", ""⟩])]
    [("blacklock-3", .ok [⟨"V3", "", ""⟩])] "blacklock-2" "boom").1)

end RansomLook
